import Mathlib

/-!
Shallow embedding of the token scanner in `src/scan.rs` of the
bytecode-interpreter repository.

The Rust scanner walks a `Peekable<CharIndices>` over the source text.  We
model that iterator state as a list of `(byte offset, character)` pairs
(`ScanState`); each scanner method becomes a Lean function that consumes a
state and returns its result together with the remaining state, exactly
mirroring the `&mut self` mutation of the Rust code.  `charIndices` rebuilds
the `(offset, char)` pairs from a string using UTF-8 byte sizes, as Rust's
`str::char_indices` does.  Character classes: `is_whitespace` is modelled
exactly as Rust's `char::is_whitespace`, i.e. the 25 code points of the
Unicode `White_Space` property; `is_numeric`, `is_alphabetic` and
`is_alphanumeric` are modelled by their ASCII restrictions (`Char.isDigit`,
`Char.isAlpha`, `Char.isAlphanum`), with which they agree on every ASCII
character — the full Unicode `Nd`/`Nl`/`No` and `Alphabetic` tables are not
transcribed, so classifications that hinge on a non-ASCII digit or letter
are outside the model's faithful domain.
-/

namespace Scan

/-- Token kinds, mirroring `enum Kind` in `src/scan.rs` (the scanner's own
flat enumeration, where each keyword is its own variant). -/
inductive Kind where
  | LeftParen
  | RightParen
  | LeftBrace
  | RightBrace
  | Comma
  | Dot
  | Semicolon
  | Minus
  | Plus
  | Slash
  | Star
  | EqualEqual
  | Equal
  | GreaterEqual
  | Greater
  | LessEqual
  | Less
  | BangEqual
  | Bang
  | Number
  | String
  | Identifier
  | And
  | Or
  | True
  | False
  | If
  | Else
  | For
  | While
  | Class
  | Nil
  | Super
  | This
  | Var
  | Function
  | Print
  | Return
  | Comment
  | Error
  deriving DecidableEq

/-- Tokens, mirroring `struct Token` in `src/scan.rs`: a byte position and a
kind. -/
structure Token where
  position : Nat
  kind : Kind
  deriving DecidableEq

/-- The state of the scanner's `Peekable<CharIndices>` iterator: the pairs
that have not been consumed yet. -/
abbrev ScanState := List (Nat × Char)

/-- The double-quote character `"`. -/
def quoteChar : Char := Char.ofNat 34

/-- The newline character. -/
def newlineChar : Char := Char.ofNat 10

/-- The backslash character. -/
def backslashChar : Char := Char.ofNat 92

/-- The left-brace character. -/
def lbraceChar : Char := Char.ofNat 123

/-- The right-brace character. -/
def rbraceChar : Char := Char.ofNat 125

/-- Model of Rust `char::is_whitespace`: the Unicode `White_Space` property,
holding exactly code points 0009–000D, 0020, 0085, 00A0, 1680, 2000–200A,
2028, 2029, 202F, 205F and 3000. -/
def is_whitespace (c : Char) : Bool :=
  (0x9 ≤ c.toNat && c.toNat ≤ 0xD) || c.toNat = 0x20 || c.toNat = 0x85 ||
    c.toNat = 0xA0 || c.toNat = 0x1680 ||
    (0x2000 ≤ c.toNat && c.toNat ≤ 0x200A) || c.toNat = 0x2028 ||
    c.toNat = 0x2029 || c.toNat = 0x202F || c.toNat = 0x205F || c.toNat = 0x3000

/-- Model of `Tokens::next_matches`: consume the next character when it equals
`expected` and report whether it did. -/
def next_matches (cs : ScanState) (expected : Char) : Bool × ScanState :=
  match cs with
  | [] => (false, [])
  | p :: rest => if p.2 = expected then (true, rest) else (false, p :: rest)

/-- Model of `Tokens::next_until_eq`: consume characters while they differ
from `expected`. -/
def next_until_eq (cs : ScanState) (expected : Char) : ScanState :=
  cs.dropWhile (fun p => p.2 != expected)

/-- Model of `Tokens::identifier`: consume the remaining alphanumeric run. -/
def identifier (cs : ScanState) : Kind × ScanState :=
  (Kind.Identifier, cs.dropWhile (fun p => p.2.isAlphanum))

/-- Model of `Tokens::number`: consume the remaining digit run. -/
def number (cs : ScanState) : Kind × ScanState :=
  (Kind.Number, cs.dropWhile (fun p => p.2.isDigit))

/-- Model of `Tokens::string`: consume until a closing quote; the quote itself
is consumed by the final unconditional `next()`. -/
def string (cs : ScanState) : Kind × ScanState :=
  match next_until_eq cs quoteChar with
  | [] => (Kind.Error, [])
  | p :: rest => (if p.2 = quoteChar then Kind.String else Kind.Error, rest)

/-- Model of `Tokens::comment`: consume up to (excluding) the next newline. -/
def comment (cs : ScanState) : Kind × ScanState :=
  (Kind.Comment, next_until_eq cs newlineChar)

/-- Model of `keyword.chars().find(|&expected| !self.next_matches(expected))`
inside `Tokens::try_keyword`: try to consume the keyword's remaining
characters one at a time, stopping at the first mismatch. -/
def matchChars : List Char → ScanState → Bool × ScanState
  | [], cs => (true, cs)
  | e :: es, cs =>
    if (next_matches cs e).1 then matchChars es (next_matches cs e).2
    else (false, (next_matches cs e).2)

/-- Model of the `keyword_is_not_...` peek in `Tokens::try_keyword`: the
keyword candidate is confirmed only when the next unconsumed character is
absent or not alphanumeric. -/
def keywordBoundary (cs : ScanState) : Bool :=
  match cs.head? with
  | some p => !p.2.isAlphanum
  | none => true

/-- Model of `Tokens::try_keyword`: the word is the keyword exactly when all
its remaining characters match and the following character (if any) is not
alphanumeric; otherwise fall back to `identifier`. -/
def try_keyword (cs : ScanState) (keyword : List Char) (keywordKind : Kind) :
    Kind × ScanState :=
  if (matchChars keyword cs).1 && keywordBoundary (matchChars keyword cs).2 then
    (keywordKind, (matchChars keyword cs).2)
  else identifier (matchChars keyword cs).2

/-- Model of `Tokens::identifier_or_keyword`: dispatch on the first character
of the word, peeking one more character for the ambiguous starts `f` and
`t`. -/
def identifier_or_keyword (cs : ScanState) (current : Char) : Kind × ScanState :=
  if current = 'a' then try_keyword cs ['n', 'd'] Kind.And
  else if current = 'c' then try_keyword cs ['l', 'a', 's', 's'] Kind.Class
  else if current = 'e' then try_keyword cs ['l', 's', 'e'] Kind.Else
  else if current = 'f' then
    if cs.head?.map Prod.snd = some 'a' then
      try_keyword cs ['a', 'l', 's', 'e'] Kind.False
    else if cs.head?.map Prod.snd = some 'o' then
      try_keyword cs ['o', 'r'] Kind.For
    else if cs.head?.map Prod.snd = some 'u' then
      try_keyword cs ['u', 'n', 'c', 't', 'i', 'o', 'n'] Kind.Function
    else identifier cs
  else if current = 'i' then try_keyword cs ['f'] Kind.If
  else if current = 'n' then try_keyword cs ['i', 'l'] Kind.Nil
  else if current = 'o' then try_keyword cs ['r'] Kind.Or
  else if current = 'p' then try_keyword cs ['r', 'i', 'n', 't'] Kind.Print
  else if current = 'r' then try_keyword cs ['e', 't', 'u', 'r', 'n'] Kind.Return
  else if current = 's' then try_keyword cs ['u', 'p', 'e', 'r'] Kind.Super
  else if current = 't' then
    if cs.head?.map Prod.snd = some 'h' then
      try_keyword cs ['h', 'i', 's'] Kind.This
    else if cs.head?.map Prod.snd = some 'r' then
      try_keyword cs ['r', 'u', 'e'] Kind.True
    else identifier cs
  else if current = 'v' then try_keyword cs ['a', 'r'] Kind.Var
  else if current = 'w' then try_keyword cs ['h', 'i', 'l', 'e'] Kind.While
  else identifier cs

/-- Model of `Tokens::kind`: classify one token starting at the already
consumed character `next`; guards that call `next_matches` consume the peeked
character exactly when it matches, as in the Rust match guards. -/
def kind (cs : ScanState) (next : Char) : Kind × ScanState :=
  if next = '(' then (Kind.LeftParen, cs)
  else if next = ')' then (Kind.RightParen, cs)
  else if next = lbraceChar then (Kind.LeftBrace, cs)
  else if next = rbraceChar then (Kind.RightBrace, cs)
  else if next = ',' then (Kind.Comma, cs)
  else if next = '.' then (Kind.Dot, cs)
  else if next = ';' then (Kind.Semicolon, cs)
  else if next = '+' then (Kind.Plus, cs)
  else if next = '-' then (Kind.Minus, cs)
  else if next = '*' then (Kind.Star, cs)
  else if next = '/' then
    if (next_matches cs '/').1 then comment (next_matches cs '/').2
    else (Kind.Slash, (next_matches cs '/').2)
  else if next = '=' then
    if (next_matches cs '=').1 then (Kind.EqualEqual, (next_matches cs '=').2)
    else (Kind.Equal, (next_matches cs '=').2)
  else if next = '>' then
    if (next_matches cs '=').1 then (Kind.GreaterEqual, (next_matches cs '=').2)
    else (Kind.Greater, (next_matches cs '=').2)
  else if next = '<' then
    if (next_matches cs '=').1 then (Kind.LessEqual, (next_matches cs '=').2)
    else (Kind.Less, (next_matches cs '=').2)
  else if next = '!' then
    if (next_matches cs '=').1 then (Kind.BangEqual, (next_matches cs '=').2)
    else (Kind.Bang, (next_matches cs '=').2)
  else if next = quoteChar then string cs
  else if next.isDigit then number cs
  else if next.isAlpha then identifier_or_keyword cs next
  else (Kind.Error, cs)

/-- Model of `impl Iterator for Tokens`: skip whitespace with `find`, then
classify the first non-whitespace character; returns the produced token (or
`none` at end of input) together with the updated iterator state. -/
def nextToken (cs : ScanState) : Option Token × ScanState :=
  match cs.dropWhile (fun p => is_whitespace p.2) with
  | [] => (none, [])
  | p :: rest =>
    let r := kind rest p.2
    (some ⟨p.1, r.1⟩, r.2)

/-- The state left by `next_matches` is a suffix of the input state. -/
theorem next_matches_suffix (cs : ScanState) (e : Char) :
    (next_matches cs e).2 <:+ cs := by
  cases cs with
  | nil => simp [next_matches]
  | cons p rest =>
    unfold next_matches
    by_cases h : p.2 = e
    · simp only [if_pos h]
      exact List.suffix_cons p rest
    · simp [h]

/-- The state left by `matchChars` is a suffix of the input state. -/
theorem matchChars_suffix (es : List Char) (cs : ScanState) :
    (matchChars es cs).2 <:+ cs := by
  induction es generalizing cs with
  | nil => simp [matchChars]
  | cons e es ih =>
    unfold matchChars
    by_cases h : (next_matches cs e).1
    · simpa [h] using (ih (next_matches cs e).2).trans (next_matches_suffix cs e)
    · simpa [h] using next_matches_suffix cs e

/-- The state left by `identifier` is a suffix of the input state. -/
theorem identifier_suffix (cs : ScanState) : (identifier cs).2 <:+ cs :=
  List.dropWhile_suffix _

/-- The state left by `number` is a suffix of the input state. -/
theorem number_suffix (cs : ScanState) : (number cs).2 <:+ cs :=
  List.dropWhile_suffix _

/-- The state left by `string` is a suffix of the input state. -/
theorem string_suffix (cs : ScanState) : (string cs).2 <:+ cs := by
  unfold string
  cases h : next_until_eq cs quoteChar with
  | nil => simp
  | cons p rest =>
    have h1 : p :: rest <:+ cs := h ▸ List.dropWhile_suffix _
    have h2 : rest <:+ p :: rest := List.suffix_cons p rest
    simpa using h2.trans h1

/-- The state left by `comment` is a suffix of the input state. -/
theorem comment_suffix (cs : ScanState) : (comment cs).2 <:+ cs :=
  List.dropWhile_suffix _

/-- The state left by `try_keyword` is a suffix of the input state. -/
theorem try_keyword_suffix (cs : ScanState) (es : List Char) (kk : Kind) :
    (try_keyword cs es kk).2 <:+ cs := by
  unfold try_keyword
  by_cases h : ((matchChars es cs).1 && keywordBoundary (matchChars es cs).2) = true
  · rw [if_pos h]
    exact matchChars_suffix es cs
  · rw [if_neg h]
    exact (identifier_suffix (matchChars es cs).2).trans (matchChars_suffix es cs)

/-- The state left by `identifier_or_keyword` is a suffix of the input
state. -/
theorem identifier_or_keyword_suffix (cs : ScanState) (c : Char) :
    (identifier_or_keyword cs c).2 <:+ cs := by
  unfold identifier_or_keyword
  by_cases h1 : c = 'a'
  · rw [if_pos h1]
    exact try_keyword_suffix ..
  rw [if_neg h1]
  by_cases h2 : c = 'c'
  · rw [if_pos h2]
    exact try_keyword_suffix ..
  rw [if_neg h2]
  by_cases h3 : c = 'e'
  · rw [if_pos h3]
    exact try_keyword_suffix ..
  rw [if_neg h3]
  by_cases h4 : c = 'f'
  · rw [if_pos h4]
    by_cases h4a : cs.head?.map Prod.snd = some 'a'
    · rw [if_pos h4a]
      exact try_keyword_suffix ..
    rw [if_neg h4a]
    by_cases h4o : cs.head?.map Prod.snd = some 'o'
    · rw [if_pos h4o]
      exact try_keyword_suffix ..
    rw [if_neg h4o]
    by_cases h4u : cs.head?.map Prod.snd = some 'u'
    · rw [if_pos h4u]
      exact try_keyword_suffix ..
    rw [if_neg h4u]
    exact identifier_suffix cs
  rw [if_neg h4]
  by_cases h5 : c = 'i'
  · rw [if_pos h5]
    exact try_keyword_suffix ..
  rw [if_neg h5]
  by_cases h6 : c = 'n'
  · rw [if_pos h6]
    exact try_keyword_suffix ..
  rw [if_neg h6]
  by_cases h7 : c = 'o'
  · rw [if_pos h7]
    exact try_keyword_suffix ..
  rw [if_neg h7]
  by_cases h8 : c = 'p'
  · rw [if_pos h8]
    exact try_keyword_suffix ..
  rw [if_neg h8]
  by_cases h9 : c = 'r'
  · rw [if_pos h9]
    exact try_keyword_suffix ..
  rw [if_neg h9]
  by_cases h10 : c = 's'
  · rw [if_pos h10]
    exact try_keyword_suffix ..
  rw [if_neg h10]
  by_cases h11 : c = 't'
  · rw [if_pos h11]
    by_cases h11h : cs.head?.map Prod.snd = some 'h'
    · rw [if_pos h11h]
      exact try_keyword_suffix ..
    rw [if_neg h11h]
    by_cases h11r : cs.head?.map Prod.snd = some 'r'
    · rw [if_pos h11r]
      exact try_keyword_suffix ..
    rw [if_neg h11r]
    exact identifier_suffix cs
  rw [if_neg h11]
  by_cases h12 : c = 'v'
  · rw [if_pos h12]
    exact try_keyword_suffix ..
  rw [if_neg h12]
  by_cases h13 : c = 'w'
  · rw [if_pos h13]
    exact try_keyword_suffix ..
  rw [if_neg h13]
  exact identifier_suffix cs

/-- The state left by `kind` is a suffix of the input state. -/
theorem kind_suffix (cs : ScanState) (c : Char) : (kind cs c).2 <:+ cs := by
  unfold kind
  by_cases k1 : c = '('
  · rw [if_pos k1]
  rw [if_neg k1]
  by_cases k2 : c = ')'
  · rw [if_pos k2]
  rw [if_neg k2]
  by_cases k3 : c = lbraceChar
  · rw [if_pos k3]
  rw [if_neg k3]
  by_cases k4 : c = rbraceChar
  · rw [if_pos k4]
  rw [if_neg k4]
  by_cases k5 : c = ','
  · rw [if_pos k5]
  rw [if_neg k5]
  by_cases k6 : c = '.'
  · rw [if_pos k6]
  rw [if_neg k6]
  by_cases k7 : c = ';'
  · rw [if_pos k7]
  rw [if_neg k7]
  by_cases k8 : c = '+'
  · rw [if_pos k8]
  rw [if_neg k8]
  by_cases k9 : c = '-'
  · rw [if_pos k9]
  rw [if_neg k9]
  by_cases k10 : c = '*'
  · rw [if_pos k10]
  rw [if_neg k10]
  by_cases k11 : c = '/'
  · rw [if_pos k11]
    by_cases km : (next_matches cs '/').1 = true
    · rw [if_pos km]
      exact (comment_suffix _).trans (next_matches_suffix cs '/')
    · rw [if_neg km]
      exact next_matches_suffix cs '/'
  rw [if_neg k11]
  by_cases k12 : c = '='
  · rw [if_pos k12]
    by_cases k12m : (next_matches cs '=').1 = true
    · rw [if_pos k12m]
      exact next_matches_suffix cs '='
    · rw [if_neg k12m]
      exact next_matches_suffix cs '='
  rw [if_neg k12]
  by_cases k13 : c = '>'
  · rw [if_pos k13]
    by_cases k13m : (next_matches cs '=').1 = true
    · rw [if_pos k13m]
      exact next_matches_suffix cs '='
    · rw [if_neg k13m]
      exact next_matches_suffix cs '='
  rw [if_neg k13]
  by_cases k14 : c = '<'
  · rw [if_pos k14]
    by_cases k14m : (next_matches cs '=').1 = true
    · rw [if_pos k14m]
      exact next_matches_suffix cs '='
    · rw [if_neg k14m]
      exact next_matches_suffix cs '='
  rw [if_neg k14]
  by_cases k15 : c = '!'
  · rw [if_pos k15]
    by_cases k15m : (next_matches cs '=').1 = true
    · rw [if_pos k15m]
      exact next_matches_suffix cs '='
    · rw [if_neg k15m]
      exact next_matches_suffix cs '='
  rw [if_neg k15]
  by_cases k16 : c = quoteChar
  · rw [if_pos k16]
    exact string_suffix cs
  rw [if_neg k16]
  by_cases k17 : c.isDigit = true
  · rw [if_pos k17]
    exact number_suffix cs
  rw [if_neg k17]
  by_cases k18 : c.isAlpha = true
  · rw [if_pos k18]
    exact identifier_or_keyword_suffix cs c
  rw [if_neg k18]

/-- Destructor for a successful `nextToken` step: the whitespace-skipped state
starts with the token's position, and `kind` classified the rest. -/
theorem nextToken_some (cs : ScanState) (t : Token) (rest : ScanState)
    (h : nextToken cs = (some t, rest)) :
    ∃ c tail, cs.dropWhile (fun p => is_whitespace p.2) = (t.position, c) :: tail ∧
      kind tail c = (t.kind, rest) := by
  unfold nextToken at h
  cases hd : cs.dropWhile (fun p => is_whitespace p.2) with
  | nil => rw [hd] at h; exact absurd h (by simp)
  | cons p tail =>
    rw [hd] at h
    simp only [Prod.mk.injEq, Option.some.injEq] at h
    obtain ⟨ht, hrest⟩ := h
    subst ht
    subst hrest
    exact ⟨p.2, tail, rfl, rfl⟩

/-- Destructor for an exhausted `nextToken` step: only an all-whitespace state
yields `none`, and the resulting state is empty. -/
theorem nextToken_none (cs : ScanState) (rest : ScanState)
    (h : nextToken cs = (none, rest)) :
    cs.dropWhile (fun p => is_whitespace p.2) = [] ∧ rest = [] := by
  unfold nextToken at h
  cases hd : cs.dropWhile (fun p => is_whitespace p.2) with
  | nil => rw [hd] at h; simpa using h.symm
  | cons p tail => rw [hd] at h; exact absurd h (by simp)

/-- Progress: a produced token consumed at least one character. -/
theorem nextToken_progress (cs : ScanState) (t : Token) (rest : ScanState)
    (h : nextToken cs = (some t, rest)) : rest.length < cs.length := by
  obtain ⟨c, tail, hd, hk⟩ := nextToken_some cs t rest h
  have h1 : rest <:+ tail := by
    have := kind_suffix tail c
    rwa [hk] at this
  have h2 : ((t.position, c) :: tail).length ≤ cs.length := by
    have : (t.position, c) :: tail <:+ cs := hd ▸ List.dropWhile_suffix _
    exact this.length_le
  have h3 : rest.length ≤ tail.length := h1.length_le
  simp at h2
  omega

/-- The state left by a `nextToken` step is a suffix of the input state. -/
theorem nextToken_suffix (cs : ScanState) (o : Option Token) (rest : ScanState)
    (h : nextToken cs = (o, rest)) : rest <:+ cs := by
  cases o with
  | none =>
    obtain ⟨-, hrest⟩ := nextToken_none cs rest h
    simp [hrest]
  | some t =>
    obtain ⟨c, tail, hd, hk⟩ := nextToken_some cs t rest h
    have h1 : rest <:+ tail := by
      have := kind_suffix tail c
      rwa [hk] at this
    have h2 : tail <:+ cs := by
      have : (t.position, c) :: tail <:+ cs := hd ▸ List.dropWhile_suffix _
      exact (List.suffix_cons _ tail).trans this
    exact h1.trans h2

/-- Fuel-indexed scanning loop; with enough fuel this is exactly the Rust
iterator driven to exhaustion (see `tokenize_unfold`). -/
def tokenizeFuel : Nat → ScanState → List Token
  | 0, _ => []
  | fuel + 1, cs =>
    match nextToken cs with
    | (none, _) => []
    | (some t, rest) => t :: tokenizeFuel fuel rest

/-- Model of collecting the whole `Tokens` iterator: the full token sequence
of one scan. -/
def tokenize (cs : ScanState) : List Token := tokenizeFuel (cs.length + 1) cs

/-- Fuel is irrelevant once it exceeds the state length, thanks to
progress. -/
theorem tokenizeFuel_congr (f g : Nat) (cs : ScanState)
    (hf : cs.length < f) (hg : cs.length < g) :
    tokenizeFuel f cs = tokenizeFuel g cs := by
  induction f generalizing g cs with
  | zero => omega
  | succ f ih =>
    cases g with
    | zero => omega
    | succ g =>
      unfold tokenizeFuel
      cases h : nextToken cs with
      | mk o rest =>
        cases o with
        | none => simp
        | some t =>
          have hp := nextToken_progress cs t rest h
          simp only [List.cons.injEq, true_and]
          exact ih g rest (by omega) (by omega)

/-- Unfolding equation for `tokenize`: one iterator step at a time. -/
theorem tokenize_unfold (cs : ScanState) :
    tokenize cs =
      match nextToken cs with
      | (none, _) => []
      | (some t, rest) => t :: tokenize rest := by
  unfold tokenize
  conv_lhs => rw [tokenizeFuel]
  cases h : nextToken cs with
  | mk o rest =>
    cases o with
    | none => simp
    | some t =>
      have hp := nextToken_progress cs t rest h
      simp only
      rw [tokenizeFuel_congr cs.length (rest.length + 1) rest (by omega) (by omega)]

/-- Model of `str::char_indices` starting at byte offset `i`. -/
def charIndicesAux : Nat → List Char → ScanState
  | _, [] => []
  | i, c :: cs => (i, c) :: charIndicesAux (i + c.utf8Size) cs

/-- Model of `str::char_indices`: every character of the source paired with
its byte offset. -/
def charIndices (s : String) : ScanState := charIndicesAux 0 s.data

/-- Model of `tokenize` in `src/scan.rs` applied to a source string and
collected into a list. -/
def tokenizeStr (s : String) : List Token := tokenize (charIndices s)

/-- Unfolding equation of `tokenize` at an exhausted state. -/
theorem tokenize_none (cs : ScanState) (rest : ScanState)
    (h : nextToken cs = (none, rest)) : tokenize cs = [] := by
  unfold tokenize tokenizeFuel
  rw [h]

/-- Unfolding equation of `tokenize` at a producing state. -/
theorem tokenize_cons (cs : ScanState) (t : Token) (rest : ScanState)
    (h : nextToken cs = (some t, rest)) : tokenize cs = t :: tokenize rest := by
  have hp := nextToken_progress cs t rest h
  unfold tokenize tokenizeFuel
  rw [h]
  simp only [List.cons.injEq, true_and]
  exact tokenizeFuel_congr cs.length (rest.length + 1) rest (by omega) (by omega)

/-- Byte offsets in `charIndicesAux` are at least the starting offset. -/
theorem charIndicesAux_ge (l : List Char) (i : Nat) :
    ∀ p ∈ charIndicesAux i l, i ≤ p.1 := by
  induction l generalizing i with
  | nil => simp [charIndicesAux]
  | cons c l ih =>
    intro p hp
    simp only [charIndicesAux, List.mem_cons] at hp
    rcases hp with rfl | hp
    · exact Nat.le_refl i
    · have h1 := ih (i + c.utf8Size) p hp
      have h2 := Char.utf8Size_pos c
      omega

/-- Byte offsets produced by `charIndicesAux` are strictly increasing. -/
theorem charIndicesAux_pairwise (l : List Char) (i : Nat) :
    List.Pairwise (fun p q => p.1 < q.1) (charIndicesAux i l) := by
  induction l generalizing i with
  | nil => simp [charIndicesAux]
  | cons c l ih =>
    simp only [charIndicesAux, List.pairwise_cons]
    refine ⟨?_, ih (i + c.utf8Size)⟩
    intro q hq
    have h1 := charIndicesAux_ge l (i + c.utf8Size) q hq
    have h2 := Char.utf8Size_pos c
    omega

/-- Byte offsets of `charIndices` are strictly increasing. -/
theorem charIndices_pairwise (s : String) :
    List.Pairwise (fun p q => p.1 < q.1) (charIndices s) :=
  charIndicesAux_pairwise s.data 0

/-- Every token produced by `tokenize` takes its position from an element of
the scanned state. -/
theorem tokenize_mem_pos (n : Nat) (cs : ScanState) (hn : cs.length ≤ n) (t : Token)
    (h : t ∈ tokenize cs) : ∃ c, (t.position, c) ∈ cs := by
  induction n generalizing cs with
  | zero =>
    have hcs : cs = [] := List.length_eq_zero.mp (by omega)
    subst hcs
    rw [tokenize_none [] [] rfl] at h
    exact absurd h (by simp)
  | succ n ih =>
    cases hnt : nextToken cs with
    | mk o rest =>
      cases o with
      | none =>
        rw [tokenize_none cs rest hnt] at h
        exact absurd h (by simp)
      | some t' =>
        rw [tokenize_cons cs t' rest hnt] at h
        rcases List.mem_cons.mp h with rfl | hmem
        · obtain ⟨c, tail, hd, hk⟩ := nextToken_some cs t rest hnt
          refine ⟨c, (List.dropWhile_suffix (fun p => is_whitespace p.2)).subset ?_⟩
          rw [hd]
          exact List.mem_cons_self _ _
        · have hrest := nextToken_suffix cs (some t') rest hnt
          have hlen := nextToken_progress cs t' rest hnt
          obtain ⟨c, hc⟩ := ih rest (by omega) hmem
          exact ⟨c, hrest.subset hc⟩

/-- Pairwise position increase for `tokenize` on a strictly increasing
state. -/
theorem tokenize_pairwise (n : Nat) (cs : ScanState) (hn : cs.length ≤ n)
    (hcs : List.Pairwise (fun p q => p.1 < q.1) cs) :
    List.Pairwise (fun a b => a.position < b.position) (tokenize cs) := by
  induction n generalizing cs with
  | zero =>
    have hcs0 : cs = [] := List.length_eq_zero.mp (by omega)
    subst hcs0
    rw [tokenize_none [] [] rfl]
    exact List.Pairwise.nil
  | succ n ih =>
    cases hnt : nextToken cs with
    | mk o rest =>
      cases o with
      | none =>
        rw [tokenize_none cs rest hnt]
        exact List.Pairwise.nil
      | some t =>
        rw [tokenize_cons cs t rest hnt]
        have hlen := nextToken_progress cs t rest hnt
        have hrest : rest <:+ cs := nextToken_suffix cs (some t) rest hnt
        have hrp : List.Pairwise (fun p q => p.1 < q.1) rest := hcs.sublist hrest.sublist
        refine List.pairwise_cons.mpr ⟨?_, ih rest (by omega) hrp⟩
        intro t' ht'
        obtain ⟨c', hc'⟩ := tokenize_mem_pos rest.length rest (Nat.le_refl _) t' ht'
        obtain ⟨c, tail, hd, hk⟩ := nextToken_some cs t rest hnt
        have hd_pw : List.Pairwise (fun p q => p.1 < q.1) ((t.position, c) :: tail) := by
          rw [← hd]
          exact hcs.sublist (List.dropWhile_suffix _).sublist
        have hresttail : rest <:+ tail := by
          have hks := kind_suffix tail c
          rwa [hk] at hks
        exact (List.pairwise_cons.mp hd_pw).1 _ (hresttail.subset hc')

/-- C2: across the sequence produced by one scan of any source, the token
positions are strictly increasing. -/
theorem position_monotonicity (s : String) :
    List.Pairwise (fun t₁ t₂ => t₁.position < t₂.position) (tokenizeStr s) :=
  tokenize_pairwise (charIndices s).length (charIndices s) (Nat.le_refl _)
    (charIndices_pairwise s)

/-- The token sequence is never longer than the scanned state. -/
theorem tokenize_length_le (n : Nat) (cs : ScanState) (hn : cs.length ≤ n) :
    (tokenize cs).length ≤ cs.length := by
  induction n generalizing cs with
  | zero =>
    have hcs : cs = [] := List.length_eq_zero.mp (by omega)
    subst hcs
    rw [tokenize_none [] [] rfl]
    exact Nat.le_refl 0
  | succ n ih =>
    cases hnt : nextToken cs with
    | mk o rest =>
      cases o with
      | none =>
        rw [tokenize_none cs rest hnt]
        simp
      | some t =>
        rw [tokenize_cons cs t rest hnt]
        have hlen := nextToken_progress cs t rest hnt
        have hrec := ih rest (by omega)
        simp only [List.length_cons]
        omega

/-- C7: the scanner is total (the model is a terminating function on every
finite state), every produced token consumes at least one character of the
remaining input, and the produced sequence is finite, its length bounded by
the number of remaining characters. -/
theorem scanner_progress (cs : ScanState) :
    (∀ t rest, nextToken cs = (some t, rest) → rest.length < cs.length) ∧
    (tokenize cs).length ≤ cs.length :=
  ⟨fun t rest h => nextToken_progress cs t rest h,
   tokenize_length_le cs.length cs (Nat.le_refl _)⟩

/-- Witness for `scanner_progress` at a concrete one-token input. -/
theorem scanner_progress_witness :
    ([] : ScanState).length < ([(0, '+')] : ScanState).length ∧
    (tokenize [(0, '+')]).length ≤ 1 :=
  ⟨(scanner_progress [(0, '+')]).1 ⟨0, Kind.Plus⟩ [] (by decide),
   (scanner_progress [(0, '+')]).2⟩

/-- C8: once the iterator has reported end of stream, calling it again on the
state it left behind reports end of stream again, with the same state. -/
theorem exhausted_stays_exhausted (cs rest : ScanState)
    (h : nextToken cs = (none, rest)) : nextToken rest = (none, rest) := by
  obtain ⟨-, hr⟩ := nextToken_none cs rest h
  subst hr
  rfl

/-- Witness for `exhausted_stays_exhausted` on a whitespace-only state. -/
theorem exhausted_stays_exhausted_witness :
    nextToken [] = (none, []) ∧ tokenizeStr (" ") = [] :=
  ⟨exhausted_stays_exhausted [(0, ' ')] [] (by decide), by decide⟩

/-- Evaluation of `next_matches` through the head of the state. -/
theorem next_matches_eq (cs : ScanState) (e : Char) :
    next_matches cs e =
      if cs.head?.map Prod.snd = some e then (true, cs.tail) else (false, cs) := by
  cases cs with
  | nil => simp [next_matches]
  | cons p rest =>
    by_cases hp : p.2 = e
    · simp [next_matches, hp]
    · simp [next_matches, hp]

/-- The first element surviving a `dropWhile` falsifies the predicate. -/
theorem dropWhile_cons_prop (f : Nat × Char → Bool) (l : ScanState)
    (p : Nat × Char) (rest : ScanState) (h : l.dropWhile f = p :: rest) :
    f p = false := by
  induction l with
  | nil => exact absurd h (by simp)
  | cons q l ih =>
    rw [List.dropWhile_cons] at h
    by_cases hq : f q = true
    · rw [if_pos hq] at h
      exact ih h
    · rw [if_neg hq] at h
      obtain ⟨rfl, -⟩ := List.cons.inj h
      simpa using hq

/-- One `Iterator::next` step at a non-whitespace head character. -/
theorem nextToken_cons_of_not_ws (i : Nat) (c : Char) (cs : ScanState)
    (hws : is_whitespace c = false) :
    nextToken ((i, c) :: cs) = (some ⟨i, (kind cs c).1⟩, (kind cs c).2) := by
  unfold nextToken
  rw [List.dropWhile_cons, if_neg (by simp [hws])]

/-- Counterexample to C6 as stated: the vertical tab U+000B satisfies every
hypothesis of the claim — it is none of the spec's whitespace characters
(space, tab, newline, carriage return, the set `Char.isWhitespace` checks),
no fixed punctuation character, no comparison start, no quote, no ASCII
digit and not alphabetic — yet the scanner skips it via
`char::is_whitespace` (whose `White_Space` set also holds U+000B), so the
scan of the one-character source emits no token at all; in particular it
does not emit the `Error` token at offset 0 that the claim requires. -/
theorem unrecognized_character_counterexample :
    (Char.ofNat 11).isWhitespace = false ∧
    (Char.ofNat 11) ∉ ['(', ')', lbraceChar, rbraceChar, ',', '.', ';', '+', '-', '*',
      '/', '=', '>', '<', '!', quoteChar] ∧
    (Char.ofNat 11).isDigit = false ∧ (Char.ofNat 11).isAlpha = false ∧
    tokenizeStr (String.mk [Char.ofNat 11]) = [] ∧
    tokenizeStr (String.mk [Char.ofNat 11]) ≠ [⟨0, Kind.Error⟩] := by
  decide

/-- C6 (amended): for every ASCII character that the scanner does not skip
as whitespace (`char::is_whitespace`, which on ASCII holds 0009–000D and
0020, so also vertical tab and form feed) and that no other classification
rule covers — not a fixed punctuation character, not a comparison start, not
a quote, not a digit, not alphabetic — the scanner emits an `Error` token
consuming exactly that one character, and scanning resumes at the
immediately following character with no characters skipped or batched.  On
ASCII characters the scanner's `is_numeric` and `is_alphabetic` agree with
the ASCII digit and letter classes used in the hypotheses. -/
theorem unrecognized_character (i : Nat) (c : Char) (cs : ScanState)
    (_hascii : c.toNat ≤ 127)
    (hws : is_whitespace c = false)
    (h1 : c ≠ '(') (h2 : c ≠ ')') (h3 : c ≠ lbraceChar) (h4 : c ≠ rbraceChar)
    (h5 : c ≠ ',') (h6 : c ≠ '.') (h7 : c ≠ ';') (h8 : c ≠ '+') (h9 : c ≠ '-')
    (h10 : c ≠ '*') (h11 : c ≠ '/') (h12 : c ≠ '=') (h13 : c ≠ '>') (h14 : c ≠ '<')
    (h15 : c ≠ '!') (h16 : c ≠ quoteChar) (h17 : c.isDigit = false)
    (h18 : c.isAlpha = false) :
    nextToken ((i, c) :: cs) = (some ⟨i, Kind.Error⟩, cs) := by
  rw [nextToken_cons_of_not_ws i c cs hws]
  have hk : kind cs c = (Kind.Error, cs) := by
    unfold kind
    rw [if_neg h1, if_neg h2, if_neg h3, if_neg h4, if_neg h5, if_neg h6, if_neg h7,
      if_neg h8, if_neg h9, if_neg h10, if_neg h11, if_neg h12, if_neg h13, if_neg h14,
      if_neg h15, if_neg h16, if_neg (by simp [h17]), if_neg (by simp [h18])]
  rw [hk]

/-- Witness for `unrecognized_character`: a backslash, then a percent sign,
mirroring the `unrecognized_character` test of `src/scan.rs`. -/
theorem unrecognized_character_witness :
    nextToken ((0, backslashChar) :: [(1, '%')]) = (some ⟨0, Kind.Error⟩, [(1, '%')]) ∧
    tokenizeStr (String.mk [backslashChar, '%']) = [⟨0, Kind.Error⟩, ⟨1, Kind.Error⟩] :=
  ⟨unrecognized_character 0 backslashChar [(1, '%')] (by decide) (by decide) (by decide)
    (by decide) (by decide) (by decide) (by decide) (by decide) (by decide) (by decide)
    (by decide) (by decide) (by decide) (by decide) (by decide) (by decide) (by decide)
    (by decide) (by decide) (by decide), by decide⟩

/-- C4: an opening quote with no closing quote in the remaining input yields
a single `Error` token positioned at the opening quote, and the scan ends
there: the malformed string absorbs all remaining input. -/
theorem unterminated_string_error (i : Nat) (cs : ScanState)
    (h : ∀ p ∈ cs, p.2 ≠ quoteChar) :
    tokenize ((i, quoteChar) :: cs) = [⟨i, Kind.Error⟩] := by
  have hd : cs.dropWhile (fun p => p.2 != quoteChar) = [] := by
    rw [List.dropWhile_eq_nil_iff]
    intro x hx
    simp [h x hx]
  have hk : kind cs quoteChar = (Kind.Error, []) := by
    unfold kind
    rw [if_neg (by decide), if_neg (by decide), if_neg (by decide), if_neg (by decide), if_neg (by decide), if_neg (by decide), if_neg (by decide), if_neg (by decide), if_neg (by decide), if_neg (by decide), if_neg (by decide), if_neg (by decide), if_neg (by decide), if_neg (by decide),
      if_neg (by decide), if_pos rfl]
    unfold string next_until_eq
    rw [hd]
  have hnt : nextToken ((i, quoteChar) :: cs) = (some ⟨i, Kind.Error⟩, []) := by
    rw [nextToken_cons_of_not_ws i quoteChar cs (by decide), hk]
  rw [tokenize_cons _ _ _ hnt, tokenize_none [] [] rfl]

/-- Witness for `unterminated_string_error`: the nine-character input of the
`unterminated_string` test of `src/scan.rs` (space, bang, then an
unterminated string running to the end of input). -/
theorem unterminated_string_error_witness :
    tokenizeStr (String.mk [' ', '!', quoteChar, ')', '(', ';', '3', '.', '=']) =
      [⟨1, Kind.Bang⟩, ⟨2, Kind.Error⟩] ∧
    tokenize [(2, quoteChar), (3, ')'), (4, '('), (5, ';'), (6, '3'), (7, '.'), (8, '=')] =
      [⟨2, Kind.Error⟩] :=
  ⟨by decide,
   unterminated_string_error 2
     [(3, ')'), (4, '('), (5, ';'), (6, '3'), (7, '.'), (8, '=')] (by decide)⟩

/-- C10: when a closing quote exists, every character before it (newlines and
other whitespace included) is consumed into the single `String` token, the
closing quote is consumed as well, and scanning resumes right after it. -/
theorem string_spans_lines (i : Nat) (cs : ScanState)
    (h : ∃ p ∈ cs, p.2 = quoteChar) :
    nextToken ((i, quoteChar) :: cs) =
      (some ⟨i, Kind.String⟩, (cs.dropWhile (fun p => p.2 != quoteChar)).tail) := by
  rw [nextToken_cons_of_not_ws i quoteChar cs (by decide)]
  have hne : cs.dropWhile (fun p => p.2 != quoteChar) ≠ [] := by
    intro hnil
    rw [List.dropWhile_eq_nil_iff] at hnil
    obtain ⟨p, hp, hq⟩ := h
    have hx := hnil p hp
    simp [hq] at hx
  have hk : kind cs quoteChar =
      (Kind.String, (cs.dropWhile (fun p => p.2 != quoteChar)).tail) := by
    unfold kind
    rw [if_neg (by decide), if_neg (by decide), if_neg (by decide), if_neg (by decide), if_neg (by decide), if_neg (by decide), if_neg (by decide), if_neg (by decide), if_neg (by decide), if_neg (by decide), if_neg (by decide), if_neg (by decide), if_neg (by decide), if_neg (by decide),
      if_neg (by decide), if_pos rfl]
    unfold string next_until_eq
    cases hdw : cs.dropWhile (fun p => p.2 != quoteChar) with
    | nil => exact absurd hdw hne
    | cons p rest =>
      have hp : p.2 = quoteChar := by
        have hf := dropWhile_cons_prop (fun p => p.2 != quoteChar) cs p rest hdw
        simpa using hf
      simp [hp]
  rw [hk]

/-- Witness for `string_spans_lines`: a string literal containing a newline;
all of it is one `String` token and scanning resumes after the quote. -/
theorem string_spans_lines_witness :
    nextToken ((0, quoteChar) ::
        [(1, 'a'), (2, newlineChar), (3, 'b'), (4, quoteChar), (5, '+')]) =
      (some ⟨0, Kind.String⟩, [(5, '+')]) := by
  have h := string_spans_lines 0
    [(1, 'a'), (2, newlineChar), (3, 'b'), (4, quoteChar), (5, '+')]
    ⟨(4, quoteChar), by decide, rfl⟩
  exact h.trans (by decide)

/-- Table pairing each comparison-start character with its single-character
kind. -/
def singleKind (c : Char) : Kind :=
  if c = '=' then Kind.Equal
  else if c = '>' then Kind.Greater
  else if c = '<' then Kind.Less
  else Kind.Bang

/-- Table pairing each comparison-start character with its doubled kind. -/
def doubledKind (c : Char) : Kind :=
  if c = '=' then Kind.EqualEqual
  else if c = '>' then Kind.GreaterEqual
  else if c = '<' then Kind.LessEqual
  else Kind.BangEqual

/-- C5: for each of `=`, `>`, `<`, `!` the scanner peeks exactly one
character ahead: if it is `=` it is consumed and the doubled kind emitted,
otherwise the single-character kind is emitted and the peeked character is
left in the state for the next token. -/
theorem comparison_lookahead (c : Char)
    (h : c = '=' ∨ c = '>' ∨ c = '<' ∨ c = '!') (cs : ScanState) :
    kind cs c =
      if cs.head?.map Prod.snd = some '=' then (doubledKind c, cs.tail)
      else (singleKind c, cs) := by
  have hbranch : ∀ dk sk : Kind,
      (if (next_matches cs '=').1 = true then (dk, (next_matches cs '=').2)
       else (sk, (next_matches cs '=').2)) =
      if cs.head?.map Prod.snd = some '=' then (dk, cs.tail) else (sk, cs) := by
    intro dk sk
    rw [next_matches_eq]
    by_cases hh : cs.head?.map Prod.snd = some '='
    · simp [hh]
    · simp [hh]
  rcases h with rfl | rfl | rfl | rfl
  · unfold kind
    rw [if_neg (by decide), if_neg (by decide), if_neg (by decide), if_neg (by decide), if_neg (by decide), if_neg (by decide), if_neg (by decide), if_neg (by decide), if_neg (by decide), if_neg (by decide), if_neg (by decide), if_pos rfl]
    rw [hbranch]
    by_cases hh : cs.head?.map Prod.snd = some '='
    · simp [hh, doubledKind]
    · simp [hh, singleKind]
  · unfold kind
    rw [if_neg (by decide), if_neg (by decide), if_neg (by decide), if_neg (by decide), if_neg (by decide), if_neg (by decide), if_neg (by decide), if_neg (by decide), if_neg (by decide), if_neg (by decide), if_neg (by decide), if_neg (by decide), if_pos rfl]
    rw [hbranch]
    by_cases hh : cs.head?.map Prod.snd = some '='
    · simp [hh, doubledKind]
    · simp [hh, singleKind]
  · unfold kind
    rw [if_neg (by decide), if_neg (by decide), if_neg (by decide), if_neg (by decide), if_neg (by decide), if_neg (by decide), if_neg (by decide), if_neg (by decide), if_neg (by decide), if_neg (by decide), if_neg (by decide), if_neg (by decide), if_neg (by decide), if_pos rfl]
    rw [hbranch]
    by_cases hh : cs.head?.map Prod.snd = some '='
    · simp [hh, doubledKind]
    · simp [hh, singleKind]
  · unfold kind
    rw [if_neg (by decide), if_neg (by decide), if_neg (by decide), if_neg (by decide), if_neg (by decide), if_neg (by decide), if_neg (by decide), if_neg (by decide), if_neg (by decide), if_neg (by decide), if_neg (by decide), if_neg (by decide), if_neg (by decide), if_neg (by decide), if_pos rfl]
    rw [hbranch]
    by_cases hh : cs.head?.map Prod.snd = some '='
    · simp [hh, doubledKind]
    · simp [hh, singleKind]

/-- Witness for `comparison_lookahead`, together with the full comparison
trace of the `comparison` test of `src/scan.rs`. -/
theorem comparison_lookahead_witness :
    kind [(1, '=')] '=' = (Kind.EqualEqual, []) ∧
    tokenizeStr ("===!!=<>==<=>") = [⟨0, Kind.EqualEqual⟩, ⟨2, Kind.Equal⟩, ⟨3, Kind.Bang⟩,
      ⟨4, Kind.BangEqual⟩, ⟨6, Kind.Less⟩, ⟨7, Kind.GreaterEqual⟩, ⟨9, Kind.Equal⟩,
      ⟨10, Kind.LessEqual⟩, ⟨12, Kind.Greater⟩] :=
  ⟨(comparison_lookahead '=' (Or.inl rfl) [(1, '=')]).trans (by decide), by decide⟩

/-- Lookup table of the sixteen keyword strings and their kinds, exactly as
recognized by `identifier_or_keyword` and `try_keyword`. -/
def keywordOfWord (w : List Char) : Option Kind :=
  if w = ['a', 'n', 'd'] then some Kind.And
  else if w = ['c', 'l', 'a', 's', 's'] then some Kind.Class
  else if w = ['e', 'l', 's', 'e'] then some Kind.Else
  else if w = ['f', 'a', 'l', 's', 'e'] then some Kind.False
  else if w = ['f', 'o', 'r'] then some Kind.For
  else if w = ['f', 'u', 'n', 'c', 't', 'i', 'o', 'n'] then some Kind.Function
  else if w = ['i', 'f'] then some Kind.If
  else if w = ['n', 'i', 'l'] then some Kind.Nil
  else if w = ['o', 'r'] then some Kind.Or
  else if w = ['p', 'r', 'i', 'n', 't'] then some Kind.Print
  else if w = ['r', 'e', 't', 'u', 'r', 'n'] then some Kind.Return
  else if w = ['s', 'u', 'p', 'e', 'r'] then some Kind.Super
  else if w = ['t', 'h', 'i', 's'] then some Kind.This
  else if w = ['t', 'r', 'u', 'e'] then some Kind.True
  else if w = ['v', 'a', 'r'] then some Kind.Var
  else if w = ['w', 'h', 'i', 'l', 'e'] then some Kind.While
  else none

/-- Specification of `try_keyword` for an all-alphanumeric keyword suffix:
the keyword kind is returned exactly when the maximal alphanumeric run of the
state spells the suffix, and the state is always advanced past that maximal
run. -/
theorem try_keyword_spec (es : List Char) (kk : Kind) (cs : ScanState)
    (hes : ∀ e ∈ es, e.isAlphanum = true) :
    try_keyword cs es kk =
      (if (cs.takeWhile (fun p => p.2.isAlphanum)).map Prod.snd = es then kk
       else Kind.Identifier,
       cs.dropWhile (fun p => p.2.isAlphanum)) := by
  induction es generalizing cs with
  | nil =>
    cases cs with
    | nil => simp [try_keyword, matchChars, keywordBoundary, identifier]
    | cons p cs' =>
      by_cases hp : p.2.isAlphanum = true
      · simp [try_keyword, matchChars, keywordBoundary, identifier,
          List.takeWhile_cons, List.dropWhile_cons, hp]
      · simp [try_keyword, matchChars, keywordBoundary, identifier,
          List.takeWhile_cons, List.dropWhile_cons, hp]
  | cons e es ih =>
    have he : e.isAlphanum = true := hes e (List.mem_cons_self e es)
    cases cs with
    | nil =>
      simp [try_keyword, matchChars, next_matches, keywordBoundary, identifier]
    | cons p cs' =>
      by_cases hp : p.2 = e
      · have hpa : p.2.isAlphanum = true := by rw [hp]; exact he
        have hstep : try_keyword (p :: cs') (e :: es) kk = try_keyword cs' es kk := by
          have hmc : matchChars (e :: es) (p :: cs') = matchChars es cs' := by
            conv_lhs => rw [matchChars]
            simp [next_matches, hp]
          unfold try_keyword
          rw [hmc]
        rw [hstep, ih cs' (fun x hx => hes x (List.mem_cons_of_mem e hx))]
        simp [List.takeWhile_cons, List.dropWhile_cons, hp, he]
      · have hmc : matchChars (e :: es) (p :: cs') = (false, p :: cs') := by
          conv_lhs => rw [matchChars]
          simp [next_matches, hp]
        unfold try_keyword
        rw [hmc]
        by_cases hpa : p.2.isAlphanum = true
        · simp [identifier, keywordBoundary, List.takeWhile_cons, List.dropWhile_cons,
            hpa, hp]
        · simp [identifier, keywordBoundary, List.takeWhile_cons, List.dropWhile_cons,
            hpa]

/-- Specification of `identifier_or_keyword`: for any start character the
result kind is the keyword kind whose string is exactly the maximal
alphanumeric word (the start character followed by the maximal alphanumeric
run), if such a keyword exists, and `Identifier` otherwise; the state is
always advanced past the maximal run. -/
theorem identifier_or_keyword_spec (cs : ScanState) (c : Char) :
    identifier_or_keyword cs c =
      ((keywordOfWord (c :: (cs.takeWhile (fun p => p.2.isAlphanum)).map Prod.snd)).getD
         Kind.Identifier,
       cs.dropWhile (fun p => p.2.isAlphanum)) := by
  unfold identifier_or_keyword
  by_cases h1 : c = 'a'
  · subst h1
    rw [if_pos rfl, try_keyword_spec ['n', 'd'] Kind.And cs (by decide)]
    by_cases hw : (cs.takeWhile (fun p => p.2.isAlphanum)).map Prod.snd = ['n', 'd']
    · simp [hw, keywordOfWord]
    · simp [hw, keywordOfWord]
  rw [if_neg h1]
  by_cases h2 : c = 'c'
  · subst h2
    rw [if_pos rfl, try_keyword_spec ['l', 'a', 's', 's'] Kind.Class cs (by decide)]
    by_cases hw : (cs.takeWhile (fun p => p.2.isAlphanum)).map Prod.snd = ['l', 'a', 's', 's']
    · simp [hw, keywordOfWord]
    · simp [hw, keywordOfWord]
  rw [if_neg h2]
  by_cases h3 : c = 'e'
  · subst h3
    rw [if_pos rfl, try_keyword_spec ['l', 's', 'e'] Kind.Else cs (by decide)]
    by_cases hw : (cs.takeWhile (fun p => p.2.isAlphanum)).map Prod.snd = ['l', 's', 'e']
    · simp [hw, keywordOfWord]
    · simp [hw, keywordOfWord]
  rw [if_neg h3]
  by_cases h4 : c = 'f'
  · subst h4
    rw [if_pos rfl]
    cases cs with
    | nil => simp [identifier, keywordOfWord]
    | cons p cs' =>
      by_cases hfa : p.2 = 'a'
      · rw [if_pos (by simp [hfa]), try_keyword_spec ['a', 'l', 's', 'e'] Kind.False (p :: cs') (by decide)]
        have hpa : p.2.isAlphanum = true := by rw [hfa]; decide
        by_cases hw : (cs'.takeWhile (fun p => p.2.isAlphanum)).map Prod.snd = ['l', 's', 'e']
        · simp [List.takeWhile_cons, List.dropWhile_cons, hpa, hfa, hw, keywordOfWord]
        · simp [List.takeWhile_cons, List.dropWhile_cons, hpa, hfa, hw, keywordOfWord]
      rw [if_neg (by simp [hfa])]
      by_cases hfo : p.2 = 'o'
      · rw [if_pos (by simp [hfo]), try_keyword_spec ['o', 'r'] Kind.For (p :: cs') (by decide)]
        have hpa : p.2.isAlphanum = true := by rw [hfo]; decide
        by_cases hw : (cs'.takeWhile (fun p => p.2.isAlphanum)).map Prod.snd = ['r']
        · simp [List.takeWhile_cons, List.dropWhile_cons, hpa, hfo, hw, keywordOfWord]
        · simp [List.takeWhile_cons, List.dropWhile_cons, hpa, hfo, hw, keywordOfWord]
      rw [if_neg (by simp [hfo])]
      by_cases hfu : p.2 = 'u'
      · rw [if_pos (by simp [hfu]), try_keyword_spec ['u', 'n', 'c', 't', 'i', 'o', 'n'] Kind.Function (p :: cs') (by decide)]
        have hpa : p.2.isAlphanum = true := by rw [hfu]; decide
        by_cases hw : (cs'.takeWhile (fun p => p.2.isAlphanum)).map Prod.snd = ['n', 'c', 't', 'i', 'o', 'n']
        · simp [List.takeWhile_cons, List.dropWhile_cons, hpa, hfu, hw, keywordOfWord]
        · simp [List.takeWhile_cons, List.dropWhile_cons, hpa, hfu, hw, keywordOfWord]
      rw [if_neg (by simp [hfu])]
      by_cases hpa : p.2.isAlphanum = true
      · simp [identifier, List.takeWhile_cons, List.dropWhile_cons, hpa, hfa, hfo, hfu,
          keywordOfWord]
      · simp [identifier, List.takeWhile_cons, List.dropWhile_cons, hpa, keywordOfWord]
  rw [if_neg h4]
  by_cases h5 : c = 'i'
  · subst h5
    rw [if_pos rfl, try_keyword_spec ['f'] Kind.If cs (by decide)]
    by_cases hw : (cs.takeWhile (fun p => p.2.isAlphanum)).map Prod.snd = ['f']
    · simp [hw, keywordOfWord]
    · simp [hw, keywordOfWord]
  rw [if_neg h5]
  by_cases h6 : c = 'n'
  · subst h6
    rw [if_pos rfl, try_keyword_spec ['i', 'l'] Kind.Nil cs (by decide)]
    by_cases hw : (cs.takeWhile (fun p => p.2.isAlphanum)).map Prod.snd = ['i', 'l']
    · simp [hw, keywordOfWord]
    · simp [hw, keywordOfWord]
  rw [if_neg h6]
  by_cases h7 : c = 'o'
  · subst h7
    rw [if_pos rfl, try_keyword_spec ['r'] Kind.Or cs (by decide)]
    by_cases hw : (cs.takeWhile (fun p => p.2.isAlphanum)).map Prod.snd = ['r']
    · simp [hw, keywordOfWord]
    · simp [hw, keywordOfWord]
  rw [if_neg h7]
  by_cases h8 : c = 'p'
  · subst h8
    rw [if_pos rfl, try_keyword_spec ['r', 'i', 'n', 't'] Kind.Print cs (by decide)]
    by_cases hw : (cs.takeWhile (fun p => p.2.isAlphanum)).map Prod.snd = ['r', 'i', 'n', 't']
    · simp [hw, keywordOfWord]
    · simp [hw, keywordOfWord]
  rw [if_neg h8]
  by_cases h9 : c = 'r'
  · subst h9
    rw [if_pos rfl, try_keyword_spec ['e', 't', 'u', 'r', 'n'] Kind.Return cs (by decide)]
    by_cases hw : (cs.takeWhile (fun p => p.2.isAlphanum)).map Prod.snd = ['e', 't', 'u', 'r', 'n']
    · simp [hw, keywordOfWord]
    · simp [hw, keywordOfWord]
  rw [if_neg h9]
  by_cases h10 : c = 's'
  · subst h10
    rw [if_pos rfl, try_keyword_spec ['u', 'p', 'e', 'r'] Kind.Super cs (by decide)]
    by_cases hw : (cs.takeWhile (fun p => p.2.isAlphanum)).map Prod.snd = ['u', 'p', 'e', 'r']
    · simp [hw, keywordOfWord]
    · simp [hw, keywordOfWord]
  rw [if_neg h10]
  by_cases h11 : c = 't'
  · subst h11
    rw [if_pos rfl]
    cases cs with
    | nil => simp [identifier, keywordOfWord]
    | cons p cs' =>
      by_cases hth : p.2 = 'h'
      · rw [if_pos (by simp [hth]), try_keyword_spec ['h', 'i', 's'] Kind.This (p :: cs') (by decide)]
        have hpa : p.2.isAlphanum = true := by rw [hth]; decide
        by_cases hw : (cs'.takeWhile (fun p => p.2.isAlphanum)).map Prod.snd = ['i', 's']
        · simp [List.takeWhile_cons, List.dropWhile_cons, hpa, hth, hw, keywordOfWord]
        · simp [List.takeWhile_cons, List.dropWhile_cons, hpa, hth, hw, keywordOfWord]
      rw [if_neg (by simp [hth])]
      by_cases htr : p.2 = 'r'
      · rw [if_pos (by simp [htr]), try_keyword_spec ['r', 'u', 'e'] Kind.True (p :: cs') (by decide)]
        have hpa : p.2.isAlphanum = true := by rw [htr]; decide
        by_cases hw : (cs'.takeWhile (fun p => p.2.isAlphanum)).map Prod.snd = ['u', 'e']
        · simp [List.takeWhile_cons, List.dropWhile_cons, hpa, htr, hw, keywordOfWord]
        · simp [List.takeWhile_cons, List.dropWhile_cons, hpa, htr, hw, keywordOfWord]
      rw [if_neg (by simp [htr])]
      by_cases hpa : p.2.isAlphanum = true
      · simp [identifier, List.takeWhile_cons, List.dropWhile_cons, hpa, hth, htr,
          keywordOfWord]
      · simp [identifier, List.takeWhile_cons, List.dropWhile_cons, hpa, keywordOfWord]
  rw [if_neg h11]
  by_cases h12 : c = 'v'
  · subst h12
    rw [if_pos rfl, try_keyword_spec ['a', 'r'] Kind.Var cs (by decide)]
    by_cases hw : (cs.takeWhile (fun p => p.2.isAlphanum)).map Prod.snd = ['a', 'r']
    · simp [hw, keywordOfWord]
    · simp [hw, keywordOfWord]
  rw [if_neg h12]
  by_cases h13 : c = 'w'
  · subst h13
    rw [if_pos rfl, try_keyword_spec ['h', 'i', 'l', 'e'] Kind.While cs (by decide)]
    by_cases hw : (cs.takeWhile (fun p => p.2.isAlphanum)).map Prod.snd = ['h', 'i', 'l', 'e']
    · simp [hw, keywordOfWord]
    · simp [hw, keywordOfWord]
  rw [if_neg h13]
  simp [identifier, keywordOfWord, h1, h2, h3, h4, h5, h6, h7, h8, h9, h10, h11,
    h12, h13]

/-- An alphabetic character differs from every non-alphabetic character. -/
theorem isAlpha_ne (c d : Char) (h : c.isAlpha = true) (hd : d.isAlpha = false) :
    c ≠ d := by
  intro hc
  rw [hc, hd] at h
  exact absurd h (by decide)

/-- An alphabetic character is not a digit. -/
theorem isDigit_eq_false_of_isAlpha (c : Char) (h : c.isAlpha = true) :
    c.isDigit = false := by
  simp [Char.isAlpha, Char.isUpper, Char.isLower, Char.isDigit, UInt32.le_def,
    BitVec.le_def] at h ⊢
  omega

/-- C1: for an alphabetic start character, the scanner's classifier emits the
keyword kind exactly when the maximal alphanumeric word starting there equals
that keyword string (so the character after the word is absent or not
alphanumeric), and otherwise one `Identifier` kind; in both cases the state
is advanced past the whole word, so a word with a keyword as a strict prefix
is never split into a keyword token plus a remainder. -/
theorem keyword_exact_match (cs : ScanState) (c : Char) (h : c.isAlpha = true) :
    kind cs c =
      ((keywordOfWord (c :: (cs.takeWhile (fun p => p.2.isAlphanum)).map Prod.snd)).getD
         Kind.Identifier,
       cs.dropWhile (fun p => p.2.isAlphanum)) := by
  unfold kind
  rw [if_neg (isAlpha_ne c '(' h (by decide)), if_neg (isAlpha_ne c ')' h (by decide)),
    if_neg (isAlpha_ne c lbraceChar h (by decide)),
    if_neg (isAlpha_ne c rbraceChar h (by decide)),
    if_neg (isAlpha_ne c ',' h (by decide)), if_neg (isAlpha_ne c '.' h (by decide)),
    if_neg (isAlpha_ne c ';' h (by decide)), if_neg (isAlpha_ne c '+' h (by decide)),
    if_neg (isAlpha_ne c '-' h (by decide)), if_neg (isAlpha_ne c '*' h (by decide)),
    if_neg (isAlpha_ne c '/' h (by decide)), if_neg (isAlpha_ne c '=' h (by decide)),
    if_neg (isAlpha_ne c '>' h (by decide)), if_neg (isAlpha_ne c '<' h (by decide)),
    if_neg (isAlpha_ne c '!' h (by decide)), if_neg (isAlpha_ne c quoteChar h (by decide)),
    if_neg (by simp [isDigit_eq_false_of_isAlpha c h]), if_pos h]
  exact identifier_or_keyword_spec cs c

/-- Witness for `keyword_exact_match`: the word `class` is the `Class`
keyword, while `classy` — `class` followed by one more alphanumeric
character — is one `Identifier` consuming the whole word, never a `Class`
token plus a remainder. -/
theorem keyword_exact_match_witness :
    kind [(1, 'l'), (2, 'a'), (3, 's'), (4, 's')] 'c' = (Kind.Class, []) ∧
    kind [(1, 'l'), (2, 'a'), (3, 's'), (4, 's'), (5, 'y')] 'c' = (Kind.Identifier, []) :=
  ⟨(keyword_exact_match [(1, 'l'), (2, 'a'), (3, 's'), (4, 's')] 'c' (by decide)).trans
     (by decide),
   (keyword_exact_match [(1, 'l'), (2, 'a'), (3, 's'), (4, 's'), (5, 'y')] 'c'
     (by decide)).trans (by decide)⟩

/-- A two-branch conditional avoids any value both branches avoid. -/
theorem ite_ne_of_ne (P : Prop) [Decidable P] (a b c : Kind)
    (ha : a ≠ c) (hb : b ≠ c) : (if P then a else b) ≠ c := by
  by_cases h : P
  · rwa [if_pos h]
  · rwa [if_neg h]

/-- The keyword table never yields the `Comment` kind. -/
theorem keywordOfWord_getD_ne_comment (w : List Char) :
    (keywordOfWord w).getD Kind.Identifier ≠ Kind.Comment := by
  unfold keywordOfWord
  simp only [apply_ite (fun o : Option Kind => o.getD Kind.Identifier),
    Option.getD_some, Option.getD_none]
  exact (ite_ne_of_ne _ _ _ _ (by decide)
    (ite_ne_of_ne _ _ _ _ (by decide)
    (ite_ne_of_ne _ _ _ _ (by decide)
    (ite_ne_of_ne _ _ _ _ (by decide)
    (ite_ne_of_ne _ _ _ _ (by decide)
    (ite_ne_of_ne _ _ _ _ (by decide)
    (ite_ne_of_ne _ _ _ _ (by decide)
    (ite_ne_of_ne _ _ _ _ (by decide)
    (ite_ne_of_ne _ _ _ _ (by decide)
    (ite_ne_of_ne _ _ _ _ (by decide)
    (ite_ne_of_ne _ _ _ _ (by decide)
    (ite_ne_of_ne _ _ _ _ (by decide)
    (ite_ne_of_ne _ _ _ _ (by decide)
    (ite_ne_of_ne _ _ _ _ (by decide)
    (ite_ne_of_ne _ _ _ _ (by decide)
    (ite_ne_of_ne _ _ _ _ (by decide)
    (by decide)))))))))))))))))

/-- A `Comment` kind arises only from a slash whose peeked next character is
another slash. -/
theorem kind_comment_only_slash_slash (cs : ScanState) (c : Char) (k : Kind)
    (rest : ScanState) (hk : kind cs c = (k, rest)) (hc : k = Kind.Comment) :
    c = '/' ∧ cs.head?.map Prod.snd = some '/' := by
  subst hc
  by_cases hslash : c = '/'
  · subst hslash
    refine ⟨rfl, ?_⟩
    unfold kind at hk
    rw [if_neg (by decide), if_neg (by decide), if_neg (by decide), if_neg (by decide), if_neg (by decide), if_neg (by decide), if_neg (by decide), if_neg (by decide), if_neg (by decide), if_neg (by decide), if_pos rfl, next_matches_eq] at hk
    by_cases hh : cs.head?.map Prod.snd = some '/'
    · exact hh
    · exfalso
      simp [hh] at hk
  · exfalso
    unfold kind at hk
    by_cases g1 : c = '('
    · rw [if_pos g1] at hk
      simp at hk
    rw [if_neg g1] at hk
    by_cases g2 : c = ')'
    · rw [if_pos g2] at hk
      simp at hk
    rw [if_neg g2] at hk
    by_cases g3 : c = lbraceChar
    · rw [if_pos g3] at hk
      simp at hk
    rw [if_neg g3] at hk
    by_cases g4 : c = rbraceChar
    · rw [if_pos g4] at hk
      simp at hk
    rw [if_neg g4] at hk
    by_cases g5 : c = ','
    · rw [if_pos g5] at hk
      simp at hk
    rw [if_neg g5] at hk
    by_cases g6 : c = '.'
    · rw [if_pos g6] at hk
      simp at hk
    rw [if_neg g6] at hk
    by_cases g7 : c = ';'
    · rw [if_pos g7] at hk
      simp at hk
    rw [if_neg g7] at hk
    by_cases g8 : c = '+'
    · rw [if_pos g8] at hk
      simp at hk
    rw [if_neg g8] at hk
    by_cases g9 : c = '-'
    · rw [if_pos g9] at hk
      simp at hk
    rw [if_neg g9] at hk
    by_cases g10 : c = '*'
    · rw [if_pos g10] at hk
      simp at hk
    rw [if_neg g10] at hk
    rw [if_neg hslash] at hk
    by_cases g12 : c = '='
    · rw [if_pos g12] at hk
      by_cases gm12 : (next_matches cs '=').1 = true
      · rw [if_pos gm12] at hk
        simp at hk
      · rw [if_neg gm12] at hk
        simp at hk
    rw [if_neg g12] at hk
    by_cases g13 : c = '>'
    · rw [if_pos g13] at hk
      by_cases gm13 : (next_matches cs '=').1 = true
      · rw [if_pos gm13] at hk
        simp at hk
      · rw [if_neg gm13] at hk
        simp at hk
    rw [if_neg g13] at hk
    by_cases g14 : c = '<'
    · rw [if_pos g14] at hk
      by_cases gm14 : (next_matches cs '=').1 = true
      · rw [if_pos gm14] at hk
        simp at hk
      · rw [if_neg gm14] at hk
        simp at hk
    rw [if_neg g14] at hk
    by_cases g15 : c = '!'
    · rw [if_pos g15] at hk
      by_cases gm15 : (next_matches cs '=').1 = true
      · rw [if_pos gm15] at hk
        simp at hk
      · rw [if_neg gm15] at hk
        simp at hk
    rw [if_neg g15] at hk
    by_cases g16 : c = quoteChar
    · rw [if_pos g16] at hk
      unfold string at hk
      cases hd : next_until_eq cs quoteChar with
      | nil =>
        rw [hd] at hk
        simp at hk
      | cons p r =>
        rw [hd] at hk
        by_cases hpq : p.2 = quoteChar
        · simp [hpq] at hk
        · simp [hpq] at hk
    rw [if_neg g16] at hk
    by_cases g17 : c.isDigit = true
    · rw [if_pos g17] at hk
      unfold number at hk
      simp at hk
    rw [if_neg g17] at hk
    by_cases g18 : c.isAlpha = true
    · rw [if_pos g18] at hk
      rw [identifier_or_keyword_spec cs c] at hk
      have hne := keywordOfWord_getD_ne_comment
        (c :: (cs.takeWhile (fun p => p.2.isAlphanum)).map Prod.snd)
      rw [Prod.mk.injEq] at hk
      exact hne hk.1
    rw [if_neg g18] at hk
    simp at hk

/-- C9: the comment dialect is `//`: a slash followed by another slash emits
a `Comment` token consuming up to (excluding) the next newline, a `Comment`
kind arises from no other classification, and `#` is not a comment marker:
it is a single-character `Error` token. -/
theorem comment_dialect (i : Nat) (cs : ScanState) :
    (∀ j, nextToken ((i, '/') :: (j, '/') :: cs) =
      (some ⟨i, Kind.Comment⟩, cs.dropWhile (fun p => p.2 != newlineChar))) ∧
    (∀ c rest k rest', kind rest c = (k, rest') → k = Kind.Comment →
      c = '/' ∧ rest.head?.map Prod.snd = some '/') ∧
    nextToken ((i, '#') :: cs) = (some ⟨i, Kind.Error⟩, cs) := by
  refine ⟨?_, ?_, ?_⟩
  · intro j
    rw [nextToken_cons_of_not_ws i '/' ((j, '/') :: cs) (by decide)]
    have hnm : next_matches ((j, '/') :: cs) '/' = (true, cs) := by
      simp [next_matches]
    have hk : kind ((j, '/') :: cs) '/' =
        (Kind.Comment, cs.dropWhile (fun p => p.2 != newlineChar)) := by
      unfold kind
      rw [if_neg (by decide), if_neg (by decide), if_neg (by decide), if_neg (by decide), if_neg (by decide), if_neg (by decide), if_neg (by decide), if_neg (by decide), if_neg (by decide), if_neg (by decide), if_pos rfl, hnm]
      simp [comment, next_until_eq]
    rw [hk]
  · exact fun c rest k rest' => kind_comment_only_slash_slash rest c k rest'
  · rw [nextToken_cons_of_not_ws i '#' cs (by decide)]
    have hk : kind cs '#' = (Kind.Error, cs) := by
      unfold kind
      rw [if_neg (by decide), if_neg (by decide), if_neg (by decide), if_neg (by decide), if_neg (by decide), if_neg (by decide), if_neg (by decide), if_neg (by decide), if_neg (by decide), if_neg (by decide), if_neg (by decide), if_neg (by decide), if_neg (by decide), if_neg (by decide), if_neg (by decide), if_neg (by decide), if_neg (by decide), if_neg (by decide)]
    rw [hk]

/-- Witness for `comment_dialect`: the only-if direction at a two-slash
state, and the trace of the source `#7`, where `#` is an `Error` and `7` a
`Number`. -/
theorem comment_dialect_witness :
    ('/' = '/' ∧ ([(1, '/')] : ScanState).head?.map Prod.snd = some '/') ∧
    tokenizeStr ("#7") = [⟨0, Kind.Error⟩, ⟨1, Kind.Number⟩] ∧
    tokenizeStr ("//abc") = [⟨0, Kind.Comment⟩] :=
  ⟨(comment_dialect 0 []).2.1 '/' [(1, '/')] Kind.Comment [] (by decide) rfl,
   by decide, by decide⟩

/-- Fuel-indexed variant of the scan that also records each token's span: the
sublist of state entries consumed for that token (whitespace skipped before
the token is not part of the span). -/
def scanSpansFuel : Nat → ScanState → List (Token × ScanState)
  | 0, _ => []
  | fuel + 1, cs =>
    match nextToken cs with
    | (none, _) => []
    | (some t, rest) =>
      (t, (cs.dropWhile (fun p => is_whitespace p.2)).take
            ((cs.dropWhile (fun p => is_whitespace p.2)).length - rest.length)) ::
        scanSpansFuel fuel rest

/-- Scan of a whole state recording each token with its span. -/
def scanWithSpans (cs : ScanState) : List (Token × ScanState) :=
  scanSpansFuel (cs.length + 1) cs

/-- Fuel is irrelevant for `scanSpansFuel` once it exceeds the state
length. -/
theorem scanSpansFuel_congr (f g : Nat) (cs : ScanState)
    (hf : cs.length < f) (hg : cs.length < g) :
    scanSpansFuel f cs = scanSpansFuel g cs := by
  induction f generalizing g cs with
  | zero => omega
  | succ f ih =>
    cases g with
    | zero => omega
    | succ g =>
      unfold scanSpansFuel
      cases h : nextToken cs with
      | mk o rest =>
        cases o with
        | none => simp
        | some t =>
          have hp := nextToken_progress cs t rest h
          simp only [List.cons.injEq, true_and]
          exact ih g rest (by omega) (by omega)

/-- Unfolding equation of `scanWithSpans` at an exhausted state. -/
theorem scanWithSpans_none (cs rest : ScanState) (h : nextToken cs = (none, rest)) :
    scanWithSpans cs = [] := by
  unfold scanWithSpans scanSpansFuel
  rw [h]

/-- Unfolding equation of `scanWithSpans` at a producing state. -/
theorem scanWithSpans_cons (cs : ScanState) (t : Token) (rest : ScanState)
    (h : nextToken cs = (some t, rest)) :
    scanWithSpans cs =
      (t, (cs.dropWhile (fun p => is_whitespace p.2)).take
            ((cs.dropWhile (fun p => is_whitespace p.2)).length - rest.length)) ::
        scanWithSpans rest := by
  have hp := nextToken_progress cs t rest h
  unfold scanWithSpans scanSpansFuel
  rw [h]
  simp only [List.cons.injEq, true_and]
  exact scanSpansFuel_congr cs.length (rest.length + 1) rest (by omega) (by omega)

/-- The spans project to exactly the token sequence of the scan. -/
theorem scanWithSpans_map_fst (n : Nat) (cs : ScanState) (hn : cs.length ≤ n) :
    (scanWithSpans cs).map Prod.fst = tokenize cs := by
  induction n generalizing cs with
  | zero =>
    have hcs : cs = [] := List.length_eq_zero.mp (by omega)
    subst hcs
    rw [scanWithSpans_none [] [] rfl, tokenize_none [] [] rfl]
    rfl
  | succ n ih =>
    cases hnt : nextToken cs with
    | mk o rest =>
      cases o with
      | none =>
        rw [scanWithSpans_none cs rest hnt, tokenize_none cs rest hnt]
        rfl
      | some t =>
        rw [scanWithSpans_cons cs t rest hnt, tokenize_cons cs t rest hnt]
        have hp := nextToken_progress cs t rest hnt
        simp only [List.map_cons, List.cons.injEq, true_and]
        exact ih rest (by omega)

/-- Decomposition of the whitespace-skipped state into the produced token's
span and the remaining state. -/
theorem span_append (cs : ScanState) (t : Token) (rest : ScanState)
    (h : nextToken cs = (some t, rest)) :
    (cs.dropWhile (fun p => is_whitespace p.2)).take
        ((cs.dropWhile (fun p => is_whitespace p.2)).length - rest.length) ++ rest =
      cs.dropWhile (fun p => is_whitespace p.2) := by
  obtain ⟨c, tail, hd, hk⟩ := nextToken_some cs t rest h
  have hsuf : rest <:+ cs.dropWhile (fun p => is_whitespace p.2) := by
    rw [hd]
    have h1 : rest <:+ tail := by
      have h2 := kind_suffix tail c
      rwa [hk] at h2
    exact h1.trans (List.suffix_cons (t.position, c) tail)
  obtain ⟨u, hu⟩ := hsuf
  rw [← hu]
  have hlen : u.length = (u ++ rest).length - rest.length := by
    simp
  rw [← hlen, List.take_left]

/-- All span entries of `scanWithSpans` come from the scanned state. -/
theorem scanWithSpans_span_subset (n : Nat) (cs : ScanState) (hn : cs.length ≤ n)
    (ts : Token × ScanState) (h : ts ∈ scanWithSpans cs) :
    ∀ q ∈ ts.2, q ∈ cs := by
  induction n generalizing cs with
  | zero =>
    have hcs : cs = [] := List.length_eq_zero.mp (by omega)
    subst hcs
    rw [scanWithSpans_none [] [] rfl] at h
    exact absurd h (by simp)
  | succ n ih =>
    cases hnt : nextToken cs with
    | mk o rest =>
      cases o with
      | none =>
        rw [scanWithSpans_none cs rest hnt] at h
        exact absurd h (by simp)
      | some t =>
        rw [scanWithSpans_cons cs t rest hnt] at h
        have hp := nextToken_progress cs t rest hnt
        have hrest : rest <:+ cs := nextToken_suffix cs (some t) rest hnt
        rcases List.mem_cons.mp h with rfl | hmem
        · intro q hq
          have h2 := List.take_sublist
            ((cs.dropWhile (fun p => is_whitespace p.2)).length - rest.length)
            (cs.dropWhile (fun p => is_whitespace p.2))
          have h3 : List.Sublist (cs.dropWhile (fun p : Nat × Char => is_whitespace p.2)) cs :=
            (List.dropWhile_suffix _).sublist
          exact h3.subset (h2.subset hq)
        · intro q hq
          exact hrest.subset (ih rest (by omega) hmem q hq)

/-- Each non-whitespace entry of a strictly position-increasing state lies in
the span of exactly one produced token. -/
theorem coverage_aux (n : Nat) (cs : ScanState) (hn : cs.length ≤ n)
    (hcs : List.Pairwise (fun p q => p.1 < q.1) cs) (x : Nat × Char)
    (hx : x ∈ cs) (hw : is_whitespace x.2 = false) :
    (scanWithSpans cs).countP (fun ts => decide (x ∈ ts.2)) = 1 := by
  induction n generalizing cs with
  | zero =>
    have hcs0 : cs = [] := List.length_eq_zero.mp (by omega)
    subst hcs0
    exact absurd hx (by simp)
  | succ n ih =>
    cases hnt : nextToken cs with
    | mk o rest =>
      cases o with
      | none =>
        obtain ⟨hdw, -⟩ := nextToken_none cs rest hnt
        rw [List.dropWhile_eq_nil_iff] at hdw
        have hcontra := hdw x hx
        rw [hw] at hcontra
        exact absurd hcontra (by decide)
      | some t =>
        have hp := nextToken_progress cs t rest hnt
        have hrest : rest <:+ cs := nextToken_suffix cs (some t) rest hnt
        have hrp : List.Pairwise (fun p q => p.1 < q.1) rest := hcs.sublist hrest.sublist
        have hua := span_append cs t rest hnt
        have hxd : x ∈ cs.dropWhile (fun p => is_whitespace p.2) := by
          have hsplit := List.takeWhile_append_dropWhile
            (fun p : Nat × Char => is_whitespace p.2) cs
          have hx2 : x ∈ cs.takeWhile (fun p : Nat × Char => is_whitespace p.2) ++
              cs.dropWhile (fun p : Nat × Char => is_whitespace p.2) := by
            rw [hsplit]
            exact hx
          rcases List.mem_append.mp hx2 with hxl | hxr
          · exfalso
            have hxw := List.mem_takeWhile_imp hxl
            rw [hw] at hxw
            exact absurd hxw (by decide)
          · exact hxr
        have hdp : List.Pairwise (fun p q => p.1 < q.1)
            (cs.dropWhile (fun p => is_whitespace p.2)) :=
          hcs.sublist (List.dropWhile_suffix _).sublist
        have hdisj : ∀ a ∈ (cs.dropWhile (fun p => is_whitespace p.2)).take
              ((cs.dropWhile (fun p => is_whitespace p.2)).length - rest.length),
            ∀ b ∈ rest, a.1 < b.1 := by
          have h5 := hdp
          rw [← hua] at h5
          exact (List.pairwise_append.mp h5).2.2
        have hxur : x ∈ (cs.dropWhile (fun p => is_whitespace p.2)).take
              ((cs.dropWhile (fun p => is_whitespace p.2)).length - rest.length) ++ rest := by
          rw [hua]
          exact hxd
        rw [scanWithSpans_cons cs t rest hnt, List.countP_cons]
        rcases List.mem_append.mp hxur with hxu | hxr
        · have hnotr : x ∉ rest := fun hxr => absurd (hdisj x hxu x hxr) (lt_irrefl x.1)
          have htail : (scanWithSpans rest).countP (fun ts => decide (x ∈ ts.2)) = 0 := by
            rw [List.countP_eq_zero]
            intro ts hts
            simp only [decide_eq_true_eq]
            intro hxts
            exact hnotr
              (scanWithSpans_span_subset rest.length rest (Nat.le_refl _) ts hts x hxts)
          rw [htail]
          simp [hxu]
        · have hnotu : x ∉ (cs.dropWhile (fun p => is_whitespace p.2)).take
              ((cs.dropWhile (fun p => is_whitespace p.2)).length - rest.length) :=
            fun hxu => absurd (hdisj x hxu x hxr) (lt_irrefl x.1)
          rw [ih rest (by omega) hrp hxr]
          simp [hnotu]

/-- C3: the spans of one scan project to exactly its token sequence, and
every non-whitespace character of the source lies within the span of exactly
one token — none is dropped and none is covered twice; the content of a
comment or of an unterminated string lies inside that single token's span. -/
theorem token_coverage (s : String) :
    (scanWithSpans (charIndices s)).map Prod.fst = tokenizeStr s ∧
    ∀ x ∈ charIndices s, is_whitespace x.2 = false →
      (scanWithSpans (charIndices s)).countP (fun ts => decide (x ∈ ts.2)) = 1 :=
  ⟨scanWithSpans_map_fst (charIndices s).length (charIndices s) (Nat.le_refl _),
   fun x hx hw => coverage_aux (charIndices s).length (charIndices s) (Nat.le_refl _)
     (charIndices_pairwise s) x hx hw⟩

/-- Witness for `token_coverage`: in the source `(a`, the parenthesis at
offset 0 lies in exactly one token span. -/
theorem token_coverage_witness :
    (scanWithSpans (charIndices ("(a"))).countP
      (fun ts => decide ((0, '(') ∈ ts.2)) = 1 :=
  (token_coverage ("(a")).2 (0, '(') (by decide) (by decide)

end Scan
